import Mathlib

/-
Verification development for the TrueSynth generate-verify-compare pipeline
(backend/llm_system.py, backend/app.py, backend/benchmark.py).

Modelling conventions:
* Python floats are modelled by the rationals; every numeric literal the
  score extractor can produce is a decimal literal, represented exactly.
* A model client call that can raise is modelled as a function into
  Except String String (the error carries str(e)); an unconfigured client
  is modelled as Option.none.  A client function stands for the composite
  "render prompt, invoke endpoint, parse to string" of one branch, since
  prompt rendering is pure string assembly and no claim inspects it.
* Regular-expression search is modelled by deterministic matchers tried at
  every start position from the left (re.search's leftmost semantics); for
  the concrete patterns of parse_score greedy/lazy backtracking is
  equivalent to the deterministic scans implemented below.  Character
  classes are modelled at ASCII granularity (the labels are ASCII).
-/

namespace TrueSynth

/-- Case-insensitive character comparison, modelling re.IGNORECASE on the
ASCII labels used by parse_score. -/
def lowEq (a b : Char) : Bool := a.toLower == b.toLower

/-- Python regex \s on the ASCII range: space, tab, newline, carriage
return, vertical tab, form feed. -/
def isSpaceC (c : Char) : Bool :=
  c == ' ' || c == '\t' || c == '\n' || c == '\r' || c == '\x0b' || c == '\x0c'

/-- Lowercasing of a character list (for case-insensitive containment). -/
def low (s : List Char) : List Char := s.map Char.toLower

/-- Match the literal pattern case-insensitively at the head of the input,
returning the rest of the input on success. -/
def stripCI : List Char → List Char → Option (List Char)
  | [], s => some s
  | _ :: _, [] => none
  | p :: ps, c :: cs => if lowEq p c then stripCI ps cs else none

/-- Greedily take a maximal run of decimal digits (regex \d+ semantics). -/
def takeDigits : List Char → List Char × List Char
  | [] => ([], [])
  | c :: cs =>
    if c.isDigit then
      let r := takeDigits cs
      (c :: r.1, r.2)
    else ([], c :: cs)

/-- Match the group (\d+(?:\.\d+)?) at the head of the input: integer
digits, then an optional fraction that requires at least one digit after
the dot.  Returns (integer digits, fraction digits, rest). -/
def parseNumAt (cs : List Char) : Option (List Char × List Char × List Char) :=
  let p := takeDigits cs
  if p.1.isEmpty then none
  else if p.2.head? = some '.' then
    let q := takeDigits p.2.tail
    if q.1.isEmpty then some (p.1, [], p.2) else some (p.1, q.1, q.2)
  else some (p.1, [], p.2)

/-- Decimal value of a digit list. -/
def digitsToNat (ds : List Char) : Nat :=
  ds.foldl (fun a c => 10 * a + (c.toNat - 48)) 0

/-- The characters of a decimal literal with integer part ds and optional
fraction part fs (empty fs means no dot is written). -/
def numPart (ds fs : List Char) : List Char :=
  if fs.isEmpty then ds else ds ++ '.' :: fs

/-- Exact value of the decimal literal with integer part ds and fraction
part fs (Python float(...) of the matched group, represented exactly). -/
def numVal (ds fs : List Char) : ℚ :=
  (digitsToNat ds : ℚ) + (digitsToNat fs : ℚ) / (10 ^ fs.length)

/-- Match the regex tail ":\s*\[?(\d+(?:\.\d+)?)" at the head of the
input and return the digits of the captured number (integer part,
fraction part). -/
def colonNum (cs : List Char) : Option (List Char × List Char) :=
  match cs with
  | ':' :: r =>
    match parseNumAt (if (r.dropWhile isSpaceC).head? = some '[' then
        (r.dropWhile isSpaceC).tail else r.dropWhile isSpaceC) with
    | some (ds, fs, _) => some (ds, fs)
    | none => none
  | _ => none

/-- Match the lazy tail "[^\n]*?:\s*\[?(\d+(?:\.\d+)?)": scan forward on
the current line for the first position where the colon-number tail
matches; a newline before any such position makes the match fail. -/
def lineToColonNum : List Char → Option (List Char × List Char)
  | [] => none
  | c :: t =>
    match colonNum (c :: t) with
    | some p => some p
    | none => if c = '\n' then none else lineToColonNum t

/-- Match the lazy tail ".*?(\d+(?:\.\d+)?)" (no DOTALL, so "." excludes
newlines): the first number on the current line, with no colon required. -/
def lineToNum : List Char → Option (List Char × List Char)
  | [] => none
  | c :: t =>
    if c.isDigit then
      match parseNumAt (c :: t) with
      | some (ds, fs, _) => some (ds, fs)
      | none => none
    else if c = '\n' then none else lineToNum t

/-- re.search: try the matcher at every start position from the left and
return the first success. -/
def searchO {α : Type} (m : List Char → Option α) : List Char → Option α
  | [] => m []
  | c :: t =>
    match m (c :: t) with
    | some v => some v
    | none => searchO m t

/-- key.replace("_", " ") from parse_score strategy 2. -/
def keySpaced (key : List Char) : List Char :=
  key.map (fun c => if c = '_' then ' ' else c)

/-- key.split("_")[0]: the token before the first underscore. -/
def shortKey (key : List Char) : List Char :=
  key.takeWhile (fun c => c ≠ '_')

/-- Case-sensitive substring test, modelling Python's "PAT in key". -/
def containsSub (pat : List Char) : List Char → Bool
  | [] => pat.isEmpty
  | c :: t => pat.isPrefixOf (c :: t) || containsSub pat t

/-- Strategy-1 matcher at one position: the exact label, then the
colon-number tail. -/
def strat1M (key cs : List Char) : Option (List Char × List Char) :=
  (stripCI key cs).bind colonNum

/-- Strategy 1: re.search(f"{key}:\s*\[?(\d+(?:\.\d+)?)", text, I). -/
def strat1 (key text : List Char) : Option (List Char × List Char) :=
  searchO (strat1M key) text

/-- Strategy 2: the same search with underscores replaced by spaces. -/
def strat2 (key text : List Char) : Option (List Char × List Char) :=
  searchO (strat1M (keySpaced key)) text

/-- Trust-specific matcher at one position: literal "Trust", then the lazy
same-line colon-number tail. -/
def stratTrustM (cs : List Char) : Option (List Char × List Char) :=
  (stripCI ("Trust".data) cs).bind lineToColonNum

/-- Strategy 3a: re.search(r"Trust.*?:\s*\[?(\d+(?:\.\d+)?)", text, I). -/
def stratTrust (text : List Char) : Option (List Char × List Char) :=
  searchO stratTrustM text

/-- Strategy-3b matcher at one position: the short key, then the lazy
same-line colon-number tail. -/
def strat3M (key cs : List Char) : Option (List Char × List Char) :=
  (stripCI (shortKey key) cs).bind lineToColonNum

/-- Strategy 3b: re.search(f"{short_key}[^\n]*?:\s*\[?(\d+(?:\.\d+)?)"). -/
def strat3 (key text : List Char) : Option (List Char × List Char) :=
  searchO (strat3M key) text

/-- Strategy-4 matcher at one position: the short key, then the first
number on the same line (no colon required). -/
def strat4M (key cs : List Char) : Option (List Char × List Char) :=
  (stripCI (shortKey key) cs).bind lineToNum

/-- Strategy 4: re.search(f"{primary_key}.*?(\d+(?:\.\d+)?)", text, I),
with "." not matching newlines (no DOTALL flag). -/
def strat4 (key text : List Char) : Option (List Char × List Char) :=
  searchO (strat4M key) text

/-- The ordered fallback cascade of parse_score (llm_system.py lines
442-479), stopping at the first strategy that matches and returning the
digits of the matched number; the Trust-specific and short-key
strategies are guarded by "SCORE" in key as in the source. -/
def pickStrategy (text key : List Char) : Option (List Char × List Char) :=
  match strat1 key text with
  | some p => some p
  | none =>
    match strat2 key text with
    | some p => some p
    | none =>
      match
        (if containsSub ("SCORE".data) key then
          match (if containsSub ("TRUST".data) key then stratTrust text else none) with
          | some p => some p
          | none => strat3 key text
        else none) with
      | some p => some p
      | none => strat4 key text

/-- parse_score(text, key, default=0.0): the value of the first matched
number (each strategy returns float(match.group(1))), default 0.0. -/
def parseScoreL (text key : List Char) : ℚ :=
  match pickStrategy text key with
  | some (ds, fs) => numVal ds fs
  | none => 0

/-- parse_score on strings. -/
def parse_score (text key : String) : ℚ := parseScoreL text.data key.data

/-- Everything of the input strictly before the first case-insensitive
occurrence of the (pre-lowercased) pattern; the whole input when the
pattern does not occur.  This is re.sub(rf"{label}.*", "", s, DOTALL|I):
with DOTALL the match extends to the end of the string, so the
substitution keeps exactly the prefix before the first occurrence. -/
def cutBefore (lpat : List Char) : List Char → List Char
  | [] => []
  | c :: t =>
    if lpat.isPrefixOf (low (c :: t)) then [] else c :: cutBefore lpat t

/-- str.strip(): drop leading whitespace. -/
def dropLeading (s : List Char) : List Char := s.dropWhile isSpaceC

/-- str.strip(): drop trailing whitespace. -/
def dropTrailing (s : List Char) : List Char :=
  (s.reverse.dropWhile isSpaceC).reverse

/-- str.strip() on both ends. -/
def pyStrip (s : List Char) : List Char := dropTrailing (dropLeading s)

/-- The label of the agreement-score block, pre-lowercased for the
case-insensitive substitution. -/
def agLabel : List Char := "agreement_score:".data

/-- The label of the final-trust-score block, pre-lowercased. -/
def ftLabel : List Char := "final_trust_score:".data

/-- The comparer-output cleanup from llm_system.py lines 487-489: remove
everything from the first "AGREEMENT_SCORE:" onward and strip, then
remove everything from the first "FINAL_TRUST_SCORE:" onward and strip. -/
def trimL (s : List Char) : List Char :=
  pyStrip (cutBefore ftLabel (pyStrip (cutBefore agLabel s)))

/-- The cleanup on strings. -/
def cleanAnswer (s : String) : String := String.mk (trimL s.data)

/-- The dict handed to the comparer chain by the RunnableParallel step:
query plus both branch answers. -/
structure CompInput where
  query : String
  generator_answer : String
  verifier_answer : String
deriving DecidableEq

/-- The debug block of the structured result. -/
structure DebugInfo where
  generator_raw : String
  verifier_raw : String
deriving DecidableEq

/-- The structured result of run_hallucination_reduction_system: answer,
scores in insertion order, debug block. -/
structure PipelineResult where
  answer : String
  scores : List (String × ℚ)
  debug : DebugInfo
deriving DecidableEq

/-- The configured clients.  none models an unconfigured client (falsy
*_llm, hence a missing chain); a function models the branch "render
prompt, invoke, parse", returning the text or the raised exception's
message. -/
structure Env where
  generator : Option (String → Except String String)
  verifier : Option (String → Except String String)
  comparer : Option (CompInput → Except String String)

/-- Result of one pipeline run plus the list of inputs the comparer chain
was actually invoked with (instrumentation used to state orchestration
claims). -/
structure RunOut where
  result : Sum String PipelineResult
  comparerInputs : List CompInput
deriving DecidableEq

/-- Step 3 of run_hallucination_reduction_system: parse the five scores,
clean the comparer output, assemble the returned dict. -/
def assemble (ga va raw : String) : PipelineResult :=
  { answer := cleanAnswer raw
  , scores :=
      [ ("Confidence", parse_score ga "CONFIDENCE_SCORE")
      , ("Factual Accuracy", parse_score va "FACTUAL_ACCURACY_SCORE")
      , ("Hallucination Score", parse_score va "HALLUCINATION_SCORE")
      , ("Agreement", parse_score raw "AGREEMENT_SCORE")
      , ("Final Trust", parse_score raw "FINAL_TRUST_SCORE") ]
  , debug := ⟨ga, va⟩ }

/-- run_hallucination_reduction_system (llm_system.py lines 419-508) with
comparer-invocation instrumentation.  A missing chain short-circuits to
the initialization error string; an exception raised by the parallel
generator/verifier step or by the comparer propagates to the enclosing
try and becomes the single "System error: ..." string.  RunnableParallel
surfaces one of the branch exceptions; the embedding fixes the generator's
exception to be reported when both branches fail. -/
def runT (env : Env) (q : String) : RunOut :=
  match env.generator, env.verifier, env.comparer with
  | some g, some v, some c =>
    match g q with
    | Except.error e => ⟨Sum.inl ("System error: " ++ e), []⟩
    | Except.ok ga =>
      match v q with
      | Except.error e => ⟨Sum.inl ("System error: " ++ e), []⟩
      | Except.ok va =>
        match c ⟨q, ga, va⟩ with
        | Except.error e => ⟨Sum.inl ("System error: " ++ e), [⟨q, ga, va⟩]⟩
        | Except.ok raw => ⟨Sum.inr (assemble ga va raw), [⟨q, ga, va⟩]⟩
  | _, _, _ => ⟨Sum.inl "System not properly initialized. Please check API keys.", []⟩

/-- The caller-visible outcome: a structured result or a top-level error
string. -/
def run (env : Env) (q : String) : Sum String PipelineResult :=
  (runT env q).result

/-- run_verifier_with_context (llm_system.py lines 539-567): sentinel when
the verifier client is unconfigured, the model text on success, the
"Verifier error: ..." sentinel when the call raises. -/
def runVerifierWithContext (ver : Option (String → String → Except String String))
    (q ctx : String) : String :=
  match ver with
  | none => "Verifier model not initialized. Please check API keys."
  | some v =>
    match v q ctx with
    | Except.ok s => s
    | Except.error e => "Verifier error: " ++ e

/-- The scores of a pipeline outcome (empty for the error-string case). -/
def scoresOf : Sum String PipelineResult → List (String × ℚ)
  | Sum.inl _ => []
  | Sum.inr r => r.scores

/-- Fully configured environment whose generator branch raises "boom". -/
def envGenBoom : Env :=
  ⟨some fun _ => Except.error "boom",
   some fun _ => Except.ok "verifier ok",
   some fun _ => Except.ok "comparer ok"⟩

/-- Fully configured environment in which every stage succeeds with a
fixed text. -/
def envAllOk : Env :=
  ⟨some fun _ => Except.ok "GA",
   some fun _ => Except.ok "VA",
   some fun _ => Except.ok "RAW"⟩

/-- Environment with generator and comparer configured but no verifier. -/
def envNoVerifier : Env :=
  ⟨some fun _ => Except.ok "gen text", none, some fun _ => Except.ok "comp text"⟩

/-- Environment whose generator self-reports a confidence of 250. -/
def envBigScore : Env :=
  ⟨some fun _ => Except.ok "CONFIDENCE_SCORE: 250",
   some fun _ => Except.ok ".",
   some fun _ => Except.ok "."⟩

/-- Environment realizing the capital-of-France end-to-end scenario. -/
def envScenario : Env :=
  ⟨some fun _ => Except.ok "CONFIDENCE_SCORE: 90",
   some fun _ => Except.ok "FACTUAL_ACCURACY_SCORE: 95\nHALLUCINATION_SCORE: 2",
   some fun _ => Except.ok "Paris is the capital.\nAGREEMENT_SCORE: 88\nFINAL_TRUST_SCORE: 92"⟩

/-- benchmark.py lines 92-98: the factual-accuracy fallback, applied only
when the self-reported score is zero and the judge score is positive. -/
def benchFactual (llmFactual judge : ℚ) (halluc : Bool) : ℚ :=
  if llmFactual = 0 ∧ 0 < judge then
    let fa := judge / 10 * 100
    if halluc then fa * 0.5 else fa
  else llmFactual

/-- benchmark.py lines 100-111: the final-trust composite fallback,
applied only when the self-reported score is zero and the judge score is
positive; factual is the already-computed factual accuracy. -/
def benchFinalTrust (llmTrust judge factual softRec incl : ℚ) (halluc : Bool) : ℚ :=
  if llmTrust = 0 ∧ 0 < judge then
    let ft := 0.40 * (judge / 10 * 100) + 0.30 * factual
      + 0.20 * (softRec * 100) + 0.10 * (incl * 100)
    if halluc then ft * 0.5 else ft
  else llmTrust

theorem lowEq_refl (c : Char) : lowEq c c = true := by
  simp [lowEq]

theorem stripCI_forall2 {p q : List Char}
    (h : List.Forall₂ (fun a b => lowEq a b = true) p q) (r : List Char) :
    stripCI p (q ++ r) = some r := by
  induction h with
  | nil => rfl
  | cons hab _ ih => simp [stripCI, hab, ih]

theorem stripCI_self (p r : List Char) : stripCI p (p ++ r) = some r :=
  stripCI_forall2 (List.forall₂_same.mpr (fun c _ => lowEq_refl c)) r

theorem digit_not_space {c : Char} (h : c.isDigit = true) : isSpaceC c = false := by
  cases hc : isSpaceC c
  · rfl
  · exfalso
    simp only [isSpaceC, Bool.or_eq_true, beq_iff_eq] at hc
    rcases hc with ((((rfl | rfl) | rfl) | rfl) | rfl) | rfl <;> exact absurd h (by decide)

theorem digit_ne_lbracket {c : Char} (h : c.isDigit = true) : c ≠ '[' := by
  rintro rfl; exact absurd h (by decide)

theorem digit_ne_dot {c : Char} (h : c.isDigit = true) : c ≠ '.' := by
  rintro rfl; exact absurd h (by decide)

theorem searchO_eq_some {α : Type} {m : List Char → Option α} {s : List Char} {v : α}
    (h : m s = some v) : searchO m s = some v := by
  cases s with
  | nil => simpa [searchO] using h
  | cons c t => simp [searchO, h]

theorem searchO_skip {α : Type} {m : List Char → Option α} {rest : List Char} :
    ∀ pre : List Char, (∀ t, t ≠ [] → t <:+ pre → m (t ++ rest) = none) →
    searchO m (pre ++ rest) = searchO m rest := by
  intro pre
  induction pre with
  | nil => intro _; rfl
  | cons c p ih =>
    intro h
    have h0 : m (c :: (p ++ rest)) = none := h (c :: p) (by simp) (List.suffix_refl _)
    calc searchO m ((c :: p) ++ rest) = searchO m (p ++ rest) := by
          simp [searchO, h0]
      _ = searchO m rest := ih (fun t ht hsuf => h t ht (hsuf.trans (List.suffix_cons c p)))

theorem dropWhile_append_eq {p : Char → Bool} :
    ∀ (ws rest : List Char), (∀ c ∈ ws, p c = true) →
    (∀ c, rest.head? = some c → p c = false) →
    (ws ++ rest).dropWhile p = rest := by
  intro ws
  induction ws with
  | nil =>
    intro rest _ hrest
    cases rest with
    | nil => rfl
    | cons c t => simp [List.dropWhile, hrest c rfl]
  | cons c w ih =>
    intro rest hws hrest
    have hc : p c = true := hws c (by simp)
    simp [List.dropWhile, hc, ih rest (fun x hx => hws x (by simp [hx])) hrest]

theorem takeDigits_append :
    ∀ (ds rest : List Char), (∀ c ∈ ds, c.isDigit = true) →
    (∀ c, rest.head? = some c → c.isDigit = false) →
    takeDigits (ds ++ rest) = (ds, rest) := by
  intro ds
  induction ds with
  | nil =>
    intro rest _ hrest
    cases rest with
    | nil => rfl
    | cons c t => simp [takeDigits, hrest c rfl]
  | cons d ds' ih =>
    intro rest hds hrest
    have hd : d.isDigit = true := hds d (by simp)
    simp [takeDigits, hd, ih rest (fun c hc => hds c (by simp [hc])) hrest]

theorem numVal_nil (ds : List Char) : numVal ds [] = (digitsToNat ds : ℚ) := by
  unfold numVal
  norm_num [show digitsToNat [] = 0 from rfl]

theorem parseNumAt_eq {ds fs suf : List Char} (hds1 : ds ≠ [])
    (hds : ∀ c ∈ ds, c.isDigit = true) (hfs : ∀ c ∈ fs, c.isDigit = true)
    (hsuf : ∀ c, suf.head? = some c → c.isDigit = false ∧ c ≠ '.') :
    parseNumAt (numPart ds fs ++ suf) = some (ds, fs, suf) := by
  obtain ⟨d, ds', rfl⟩ := List.exists_cons_of_ne_nil hds1
  have hsufd : ∀ c, suf.head? = some c → c.isDigit = false := fun c hc => (hsuf c hc).1
  have hdot : ¬ (suf.head? = some '.') := by
    intro hcon
    exact absurd rfl (hsuf '.' hcon).2
  cases fs with
  | nil =>
    have h1 : takeDigits (d :: (ds' ++ suf)) = (d :: ds', suf) := by
      simpa using takeDigits_append (d :: ds') suf hds hsufd
    simp only [numPart, List.isEmpty_nil, if_true, List.cons_append]
    simp [parseNumAt, h1, hdot]
  | cons f fs' =>
    have h1 : takeDigits (d :: (ds' ++ '.' :: f :: (fs' ++ suf)))
        = (d :: ds', '.' :: f :: (fs' ++ suf)) := by
      simpa using takeDigits_append (d :: ds') ('.' :: ((f :: fs') ++ suf)) hds
        (fun c hc => by simp at hc; subst hc; decide)
    have h2 : takeDigits (f :: (fs' ++ suf)) = (f :: fs', suf) := by
      simpa using takeDigits_append (f :: fs') suf hfs hsufd
    have harr : numPart (d :: ds') (f :: fs') ++ suf
        = d :: (ds' ++ '.' :: f :: (fs' ++ suf)) := by
      simp [numPart]
    rw [harr]
    simp [parseNumAt, h1, h2]

theorem colonNum_eq {ws br ds fs suf : List Char}
    (hws : ∀ c ∈ ws, isSpaceC c = true) (hbr : br = [] ∨ br = ['['])
    (hds1 : ds ≠ []) (hds : ∀ c ∈ ds, c.isDigit = true)
    (hfs : ∀ c ∈ fs, c.isDigit = true)
    (hsuf : ∀ c, suf.head? = some c → c.isDigit = false ∧ c ≠ '.') :
    colonNum (':' :: (ws ++ (br ++ (numPart ds fs ++ suf)))) = some (ds, fs) := by
  obtain ⟨d, ds', rfl⟩ := List.exists_cons_of_ne_nil hds1
  have hd : d.isDigit = true := hds d (by simp)
  have hnphead : (numPart (d :: ds') fs ++ suf).head? = some d := by
    unfold numPart
    split <;> simp
  have hnum : parseNumAt (numPart (d :: ds') fs ++ suf) = some (d :: ds', fs, suf) :=
    parseNumAt_eq (by simp) hds hfs hsuf
  rcases hbr with rfl | rfl
  · have hbrhead : ∀ c, (numPart (d :: ds') fs ++ suf).head? = some c →
        isSpaceC c = false := by
      intro c hc
      rw [hnphead] at hc
      cases hc
      exact digit_not_space hd
    have hdrop : (ws ++ ([] ++ (numPart (d :: ds') fs ++ suf))).dropWhile isSpaceC
        = [] ++ (numPart (d :: ds') fs ++ suf) :=
      dropWhile_append_eq ws _ (by simpa using hws) (by simpa using hbrhead)
    rw [List.nil_append] at hdrop
    have hnb : ¬ ((numPart (d :: ds') fs ++ suf).head? = some '[') := by
      rw [hnphead]
      intro hcon
      cases hcon
      exact absurd hd (by decide)
    show colonNum (':' :: (ws ++ ([] ++ (numPart (d :: ds') fs ++ suf)))) = _
    rw [List.nil_append]
    simp only [colonNum]
    rw [hdrop, if_neg hnb, hnum]
  · have hbrhead : ∀ c, ('[' :: (numPart (d :: ds') fs ++ suf)).head? = some c →
        isSpaceC c = false := by
      intro c hc
      simp only [List.head?_cons, Option.some.injEq] at hc
      subst hc
      decide
    have hdrop : (ws ++ ('[' :: (numPart (d :: ds') fs ++ suf))).dropWhile isSpaceC
        = '[' :: (numPart (d :: ds') fs ++ suf) :=
      dropWhile_append_eq ws _ hws hbrhead
    show colonNum (':' :: (ws ++ (['['] ++ (numPart (d :: ds') fs ++ suf)))) = _
    rw [List.cons_append, List.nil_append]
    simp only [colonNum]
    rw [hdrop]
    have hcond : ('[' :: (numPart (d :: ds') fs ++ suf)).head? = some '[' := rfl
    rw [if_pos hcond]
    show (match parseNumAt (numPart (d :: ds') fs ++ suf) with
      | some (ds, fs, _) => some (ds, fs)
      | none => none) = _
    rw [hnum]

theorem lineToNum_eq :
    ∀ (mid : List Char) {ds fs suf : List Char},
    (∀ c ∈ mid, c ≠ '\n' ∧ c.isDigit = false) → ds ≠ [] →
    (∀ c ∈ ds, c.isDigit = true) → (∀ c ∈ fs, c.isDigit = true) →
    (∀ c, suf.head? = some c → c.isDigit = false ∧ c ≠ '.') →
    lineToNum (mid ++ (numPart ds fs ++ suf)) = some (ds, fs) := by
  intro mid
  induction mid with
  | nil =>
    intro ds fs suf _ hds1 hds hfs hsuf
    obtain ⟨d, ds', rfl⟩ := List.exists_cons_of_ne_nil hds1
    have hd : d.isDigit = true := hds d (by simp)
    have hp : parseNumAt (numPart (d :: ds') fs ++ suf) = some (d :: ds', fs, suf) :=
      parseNumAt_eq (by simp) hds hfs hsuf
    rw [List.nil_append]
    cases fs with
    | nil =>
      have hnp : numPart (d :: ds') [] ++ suf = d :: (ds' ++ suf) := by
        simp [numPart]
      rw [hnp] at hp ⊢
      simp [lineToNum, hd, hp]
    | cons f fs' =>
      have hnp : numPart (d :: ds') (f :: fs') ++ suf
          = d :: (ds' ++ '.' :: f :: (fs' ++ suf)) := by
        simp [numPart]
      rw [hnp] at hp ⊢
      simp [lineToNum, hd, hp]
  | cons c m ih =>
    intro ds fs suf hmid hds1 hds hfs hsuf
    have hc := hmid c (by simp)
    simp [lineToNum, hc.1, hc.2,
      ih (fun x hx => hmid x (by simp [hx])) hds1 hds hfs hsuf]

theorem numVal_nonneg (ds fs : List Char) : 0 ≤ numVal ds fs := by
  unfold numVal
  have h1 : (0:ℚ) ≤ (digitsToNat ds : ℚ) := Nat.cast_nonneg _
  have h2 : (0:ℚ) ≤ (digitsToNat fs : ℚ) / (10 ^ fs.length) :=
    div_nonneg (Nat.cast_nonneg _) (by positivity)
  linarith

theorem parseScoreL_nonneg (text key : List Char) : 0 ≤ parseScoreL text key := by
  unfold parseScoreL
  split
  · exact numVal_nonneg _ _
  · exact le_refl 0

theorem parse_score_eq_val {text key : String} {ds fs : List Char}
    (h : pickStrategy text.data key.data = some (ds, fs)) :
    parse_score text key = numVal ds fs := by
  unfold parse_score parseScoreL
  rw [h]

theorem parse_score_eq_default {text key : String}
    (h : pickStrategy text.data key.data = none) :
    parse_score text key = 0 := by
  unfold parse_score parseScoreL
  rw [h]

theorem isPrefixOf_append_ext :
    ∀ (p u v : List Char), p.isPrefixOf u = true → p.isPrefixOf (u ++ v) = true := by
  intro p
  induction p with
  | nil =>
    intro u v _
    rcases u ++ v with _ | ⟨c, t⟩ <;> rfl
  | cons a p' ih =>
    intro u v h
    cases u with
    | nil => exact absurd h (by simp [List.isPrefixOf])
    | cons b u' =>
      simp only [List.cons_append, List.isPrefixOf, Bool.and_eq_true] at h ⊢
      exact ⟨h.1, ih u' v h.2⟩

theorem containsSub_nil_pat : ∀ z : List Char, containsSub [] z = true := by
  intro z
  cases z with
  | nil => rfl
  | cons c t => simp [containsSub, List.isPrefixOf]

theorem containsSub_extend_right :
    ∀ (p y z : List Char), containsSub p y = true → containsSub p (y ++ z) = true := by
  intro p y
  induction y with
  | nil =>
    intro z h
    have hp : p = [] := by
      simpa [containsSub, List.isEmpty_iff] using h
    subst hp
    exact containsSub_nil_pat z
  | cons c y' ih =>
    intro z h
    simp only [containsSub, Bool.or_eq_true] at h
    simp only [List.cons_append, containsSub, Bool.or_eq_true]
    rcases h with h | h
    · exact Or.inl (isPrefixOf_append_ext p (c :: y') z h)
    · exact Or.inr (ih z h)

theorem containsSub_extend_left :
    ∀ (p x y : List Char), containsSub p y = true → containsSub p (x ++ y) = true := by
  intro p x y h
  induction x with
  | nil => exact h
  | cons c x' ih =>
    simp only [List.cons_append, containsSub, Bool.or_eq_true]
    exact Or.inr ih

theorem low_cons (c : Char) (t : List Char) : low (c :: t) = c.toLower :: low t := rfl

theorem low_append (a b : List Char) : low (a ++ b) = low a ++ low b :=
  List.map_append _ _ _

theorem containsSub_cons_eq (lpat : List Char) (x : Char) (y : List Char) :
    containsSub lpat (x :: y) = (lpat.isPrefixOf (x :: y) || containsSub lpat y) := rfl

theorem length_dropWhile_le' (p : Char → Bool) :
    ∀ l : List Char, (l.dropWhile p).length ≤ l.length := by
  intro l
  induction l with
  | nil => simp
  | cons a t ih =>
    by_cases h : p a = true
    · rw [List.dropWhile_cons, if_pos h]
      exact le_trans ih (by simp)
    · have h' : p a = false := by simpa using h
      rw [List.dropWhile_cons, if_neg (by simp [h'])]

theorem not_contains_mid {lpat x y z : List Char}
    (h : containsSub lpat (low (x ++ (y ++ z))) = false) :
    containsSub lpat (low y) = false := by
  cases hc : containsSub lpat (low y)
  · rfl
  · exfalso
    have hall : containsSub lpat (low (x ++ (y ++ z))) = true := by
      unfold low
      rw [List.map_append, List.map_append]
      exact containsSub_extend_left _ _ _ (containsSub_extend_right _ _ _ hc)
    rw [hall] at h
    cases h

theorem cutBefore_decomp (lpat : List Char) :
    ∀ s : List Char, ∃ r, s = cutBefore lpat s ++ r := by
  intro s
  induction s with
  | nil => exact ⟨[], rfl⟩
  | cons c t ih =>
    by_cases h : lpat.isPrefixOf (low (c :: t)) = true
    · exact ⟨c :: t, by simp [cutBefore, h]⟩
    · obtain ⟨r, hr⟩ := ih
      refine ⟨r, ?_⟩
      have hcut : cutBefore lpat (c :: t) = c :: cutBefore lpat t := by
        simp [cutBefore, h]
      rw [hcut, List.cons_append]
      exact congrArg (List.cons c) hr

theorem cutBefore_id {lpat : List Char} :
    ∀ {s : List Char}, containsSub lpat (low s) = false → cutBefore lpat s = s := by
  intro s
  induction s with
  | nil => intro _; rfl
  | cons c t ih =>
    intro h
    have hor : (lpat.isPrefixOf (c.toLower :: low t) || containsSub lpat (low t)) = false := by
      rw [← containsSub_cons_eq, ← low_cons]
      exact h
    rw [Bool.or_eq_false_iff] at hor
    have h1 : lpat.isPrefixOf (low (c :: t)) = false := by
      rw [low_cons]
      exact hor.1
    have hcut : cutBefore lpat (c :: t) = c :: cutBefore lpat t := by
      simp [cutBefore, h1]
    rw [hcut, ih hor.2]

theorem cutBefore_not_contains {lpat : List Char} (hne : lpat ≠ []) :
    ∀ s : List Char, containsSub lpat (low (cutBefore lpat s)) = false := by
  have hemp : containsSub lpat [] = false := by
    cases lpat with
    | nil => exact absurd rfl hne
    | cons a l => rfl
  intro s
  induction s with
  | nil => exact hemp
  | cons c t ih =>
    by_cases h : lpat.isPrefixOf (low (c :: t)) = true
    · have hcut : cutBefore lpat (c :: t) = [] := by simp [cutBefore, h]
      rw [hcut]
      exact hemp
    · have h' : lpat.isPrefixOf (low (c :: t)) = false := by
        cases hb : lpat.isPrefixOf (low (c :: t))
        · rfl
        · exact absurd hb h
      have hcut : cutBefore lpat (c :: t) = c :: cutBefore lpat t := by
        simp [cutBefore, h']
      rw [hcut, low_cons, containsSub_cons_eq, Bool.or_eq_false_iff]
      refine ⟨?_, ih⟩
      cases hpref : lpat.isPrefixOf (c.toLower :: low (cutBefore lpat t))
      · rfl
      · exfalso
        obtain ⟨r, hr⟩ := cutBefore_decomp lpat t
        have hext : lpat.isPrefixOf ((c.toLower :: low (cutBefore lpat t)) ++ low r) = true :=
          isPrefixOf_append_ext _ _ _ hpref
        have harr : (c.toLower :: low (cutBefore lpat t)) ++ low r = low (c :: t) := by
          rw [low_cons, List.cons_append, ← low_append, ← hr]
        rw [harr, h'] at hext
        cases hext

theorem dropWhile_idem (p : Char → Bool) :
    ∀ s : List Char, (s.dropWhile p).dropWhile p = s.dropWhile p := by
  intro s
  induction s with
  | nil => rfl
  | cons c t ih =>
    by_cases h : p c = true
    · simp [List.dropWhile_cons, h, ih]
    · have h' : p c = false := by simpa using h
      simp [List.dropWhile_cons, h']

theorem dropWhile_eq_self_of_decomp {p : Char → Bool} {u v w : List Char}
    (hu : u.dropWhile p = u) (hdec : u = v ++ w) : v.dropWhile p = v := by
  cases v with
  | nil => rfl
  | cons a v' =>
    have ha : p a = false := by
      by_contra hcon
      have ha' : p a = true := by simpa using hcon
      subst hdec
      rw [List.cons_append, List.dropWhile_cons, if_pos ha'] at hu
      have hle : ((v' ++ w).dropWhile p).length ≤ (v' ++ w).length :=
        length_dropWhile_le' p (v' ++ w)
      rw [hu] at hle
      simp [List.length_cons] at hle
    simp [List.dropWhile_cons, ha]

theorem dropTrailing_decomp (s : List Char) : ∃ w, s = dropTrailing s ++ w := by
  refine ⟨(s.reverse.takeWhile isSpaceC).reverse, ?_⟩
  unfold dropTrailing
  rw [← List.reverse_append, List.takeWhile_append_dropWhile, List.reverse_reverse]

theorem dropTrailing_idem (s : List Char) :
    dropTrailing (dropTrailing s) = dropTrailing s := by
  unfold dropTrailing
  rw [List.reverse_reverse, dropWhile_idem]

theorem pyStrip_decomp (s : List Char) : ∃ u w, s = u ++ (pyStrip s ++ w) := by
  obtain ⟨w, hw⟩ := dropTrailing_decomp (dropLeading s)
  refine ⟨s.takeWhile isSpaceC, w, ?_⟩
  calc s = s.takeWhile isSpaceC ++ s.dropWhile isSpaceC :=
        (List.takeWhile_append_dropWhile isSpaceC s).symm
    _ = s.takeWhile isSpaceC ++ (pyStrip s ++ w) := by
        rw [show s.dropWhile isSpaceC = dropLeading s from rfl, hw]
        rfl

theorem pyStrip_idem (s : List Char) : pyStrip (pyStrip s) = pyStrip s := by
  unfold pyStrip
  have hu : dropLeading (dropLeading s) = dropLeading s := dropWhile_idem _ _
  obtain ⟨w, hw⟩ := dropTrailing_decomp (dropLeading s)
  have h2 : dropLeading (dropTrailing (dropLeading s)) = dropTrailing (dropLeading s) :=
    dropWhile_eq_self_of_decomp hu hw
  rw [h2, dropTrailing_idem]

theorem not_contains_pyStrip {lpat s : List Char}
    (h : containsSub lpat (low s) = false) :
    containsSub lpat (low (pyStrip s)) = false := by
  obtain ⟨u, w, hw⟩ := pyStrip_decomp s
  rw [hw] at h
  exact not_contains_mid h

theorem not_contains_cutBefore {lpat lpat2 s : List Char}
    (h : containsSub lpat (low s) = false) :
    containsSub lpat (low (cutBefore lpat2 s)) = false := by
  obtain ⟨r, hr⟩ := cutBefore_decomp lpat2 s
  rw [hr] at h
  have h' : containsSub lpat (low ([] ++ (cutBefore lpat2 s ++ r))) = false := h
  exact not_contains_mid h'

theorem trimL_idem (s : List Char) : trimL (trimL s) = trimL s := by
  have hAne : agLabel ≠ [] := by decide
  have hFne : ftLabel ≠ [] := by decide
  have h1 : containsSub agLabel (low (cutBefore agLabel s)) = false :=
    cutBefore_not_contains hAne s
  have h2 : containsSub agLabel (low (pyStrip (cutBefore agLabel s))) = false :=
    not_contains_pyStrip h1
  have h3 : containsSub agLabel (low (cutBefore ftLabel (pyStrip (cutBefore agLabel s)))) = false :=
    not_contains_cutBefore h2
  have h4 : containsSub agLabel (low (trimL s)) = false := not_contains_pyStrip h3
  have h5 : containsSub ftLabel (low (cutBefore ftLabel (pyStrip (cutBefore agLabel s)))) = false :=
    cutBefore_not_contains hFne _
  have h6 : containsSub ftLabel (low (trimL s)) = false := not_contains_pyStrip h5
  have hcutA : cutBefore agLabel (trimL s) = trimL s := cutBefore_id h4
  have hstrip1 : pyStrip (trimL s) = trimL s :=
    pyStrip_idem (cutBefore ftLabel (pyStrip (cutBefore agLabel s)))
  have hcutF : cutBefore ftLabel (trimL s) = trimL s := cutBefore_id h6
  show pyStrip (cutBefore ftLabel (pyStrip (cutBefore agLabel (trimL s)))) = trimL s
  rw [hcutA, hstrip1, hcutF, hstrip1]

/-- C1: run_hallucination_reduction_system never raises to its caller:
for every configuration of clients and every query it returns either the
fixed initialization error string (no clients configured for the
requested domain), a "System error: ..." string produced by the
top-level exception handler, or a structured result with answer, scores
and debug fields. -/
theorem c1_pipeline_never_raises (env : Env) (q : String) :
    run env q = Sum.inl "System not properly initialized. Please check API keys."
    ∨ (∃ e, run env q = Sum.inl ("System error: " ++ e))
    ∨ ∃ r, run env q = Sum.inr r := by
  rcases env with ⟨og, ov, oc⟩
  cases og with
  | none => exact Or.inl (by cases ov <;> cases oc <;> rfl)
  | some g =>
    cases ov with
    | none => exact Or.inl (by cases oc <;> rfl)
    | some v =>
      cases oc with
      | none => exact Or.inl rfl
      | some c =>
        rcases hg : g q with e | ga
        · exact Or.inr (Or.inl ⟨e, by simp [run, runT, hg]⟩)
        · rcases hv : v q with e | va
          · exact Or.inr (Or.inl ⟨e, by simp [run, runT, hg, hv]⟩)
          · rcases hc : c ⟨q, ga, va⟩ with e | raw
            · exact Or.inr (Or.inl ⟨e, by simp [run, runT, hg, hv, hc]⟩)
            · exact Or.inr (Or.inr ⟨assemble ga va raw, by simp [run, runT, hg, hv, hc]⟩)

/-- C2 counterexample: with a generator branch that raises "boom" (and a
healthy verifier and comparer), the pipeline returns the single
top-level string "System error: boom" and the comparer is never invoked
(its recorded input list is empty) — the failed branch's output is not
replaced by a sentinel handed to the comparer. -/
theorem c2_counterexample :
    runT envGenBoom "q" = ⟨Sum.inl "System error: boom", []⟩ := rfl

/-- C2 (amended): in run_hallucination_reduction_system a generator- or
verifier-branch exception aborts the run with the single top-level
string "System error: ..." and the comparer is not invoked; whenever the
comparer is invoked, its input carries the query together with both
branch outputs, so it never observes a missing generatorAnswer or
verifierAnswer field. -/
theorem c2_amended_comparer_inputs (g v : String → Except String String)
    (c : CompInput → Except String String) (q : String) :
    (∀ e, g q = Except.error e →
      runT ⟨some g, some v, some c⟩ q = ⟨Sum.inl ("System error: " ++ e), []⟩)
    ∧ (∀ ga e, g q = Except.ok ga → v q = Except.error e →
      runT ⟨some g, some v, some c⟩ q = ⟨Sum.inl ("System error: " ++ e), []⟩)
    ∧ (∀ ga va, g q = Except.ok ga → v q = Except.ok va →
      (runT ⟨some g, some v, some c⟩ q).comparerInputs = [⟨q, ga, va⟩]) := by
  refine ⟨?_, ?_, ?_⟩
  · intro e he
    simp [runT, he]
  · intro ga e hga he
    simp [runT, hga, he]
  · intro ga va hga hva
    rcases hc : c ⟨q, ga, va⟩ with e | raw <;> simp [runT, hga, hva, hc]

/-- C2 amended witness: on a fully healthy environment the comparer is
invoked exactly once, with the query and both branch outputs. -/
theorem c2_amended_witness :
    (runT envAllOk "Q").comparerInputs = [⟨"Q", "GA", "VA"⟩] :=
  (c2_amended_comparer_inputs (fun _ => Except.ok "GA")
    (fun _ => Except.ok "VA") (fun _ => Except.ok "RAW") "Q").2.2 "GA" "VA" rfl rfl

/-- C6: answer cleanup is idempotent: applying the
trim-from-AGREEMENT_SCORE/FINAL_TRUST_SCORE procedure (each cut followed
by whitespace stripping) twice yields the same string as applying it
once. -/
theorem c6_cleanup_idempotent (s : String) :
    cleanAnswer (cleanAnswer s) = cleanAnswer s := by
  show String.mk (trimL (String.mk (trimL s.data)).data) = String.mk (trimL s.data)
  rw [show (String.mk (trimL s.data)).data = trimL s.data from rfl, trimL_idem]

/-- C7 counterexample: with only the verifier client unconfigured the
pipeline entry point does not complete with a comparer-synthesized
answer; it aborts with the top-level initialization error string, so no
"Verifier model not initialized." sentinel reaches a comparer and no
FactualAccuracy score is produced. -/
theorem c7_counterexample :
    run envNoVerifier "q"
      = Sum.inl "System not properly initialized. Please check API keys." := rfl

/-- C7 (amended): if the verifier client is unconfigured, the pipeline
entry point returns the top-level error string "System not properly
initialized. Please check API keys." without completing; the sentinel
"Verifier model not initialized. Please check API keys." is produced by
the stage helper run_verifier_with_context for an unconfigured verifier
client, not by the pipeline entry point. -/
theorem c7_amended_unconfigured_verifier (env : Env) (q ctx : String)
    (hv : env.verifier = none) :
    run env q = Sum.inl "System not properly initialized. Please check API keys."
    ∧ runVerifierWithContext none q ctx
      = "Verifier model not initialized. Please check API keys." := by
  constructor
  · rcases env with ⟨og, ov, oc⟩
    cases ov with
    | some v => exact absurd hv (by simp)
    | none => cases og <;> cases oc <;> rfl
  · rfl

/-- C7 amended witness at a concrete environment with no verifier. -/
theorem c7_witness :
    run envNoVerifier "q2"
      = Sum.inl "System not properly initialized. Please check API keys."
    ∧ runVerifierWithContext none "q2" "ctx"
      = "Verifier model not initialized. Please check API keys." :=
  c7_amended_unconfigured_verifier envNoVerifier "q2" "ctx" rfl

/-- C8 counterexample: the claim omits the positive-judge-score guard of
the code.  With self-reported final trust 0 but judge score 0 (and soft
recall 1/2), the code keeps final trust 0 while the claimed composite
formula evaluates to 10. -/
theorem c8_counterexample :
    benchFinalTrust 0 0 (benchFactual 0 0 false) (1/2) 0 false = 0
    ∧ (0.40 * ((0:ℚ) / 10 * 100) + 0.30 * benchFactual 0 0 false
        + 0.20 * ((1/2 : ℚ) * 100) + 0.10 * ((0:ℚ) * 100)) = 10 := by
  constructor
  · simp [benchFinalTrust]
  · have h0 : benchFactual 0 0 false = 0 := by simp [benchFactual]
    rw [h0]
    norm_num

/-- C8 (amended): the benchmark fallbacks apply only when the judge
score is positive.  Then, with self-reported factual accuracy zero,
factual accuracy becomes (judgeScore/10)*100, halved if the row is
hallucinated (judge 8, hallucinated gives exactly 40); with
self-reported final trust zero, final trust becomes
0.40*(judge/10*100) + 0.30*factualAccuracy + 0.20*(softRecall*100) +
0.10*(inclusion*100), halved if hallucinated.  When the judge score is
not positive the self-reported zero is kept unchanged. -/
theorem c8_amended_benchmark_fallbacks (judge softRec incl : ℚ) (hall : Bool)
    (hj : 0 < judge) :
    benchFactual 0 judge hall
      = (if hall then (judge / 10 * 100) * 0.5 else judge / 10 * 100)
    ∧ benchFinalTrust 0 judge (benchFactual 0 judge hall) softRec incl hall
      = (if hall then
          (0.40 * (judge / 10 * 100) + 0.30 * benchFactual 0 judge hall
            + 0.20 * (softRec * 100) + 0.10 * (incl * 100)) * 0.5
        else
          0.40 * (judge / 10 * 100) + 0.30 * benchFactual 0 judge hall
            + 0.20 * (softRec * 100) + 0.10 * (incl * 100)) := by
  constructor
  · unfold benchFactual
    rw [if_pos ⟨rfl, hj⟩]
  · unfold benchFinalTrust
    rw [if_pos ⟨rfl, hj⟩]

/-- C8 amended witness: judge score 8, hallucinated, self-reported
factual accuracy 0 yields exactly 40. -/
theorem c8_witness : benchFactual 0 8 true = 40 := by
  have h := (c8_amended_benchmark_fallbacks 8 0 0 true (by norm_num)).1
  rw [h]
  norm_num

/-- C10: parse_score never returns a negative value for any input text
and label key: every numeric pattern of the five fallback strategies
matches only unsigned integer or decimal literals and the default is
0.0; in particular "CONFIDENCE_SCORE: -20" parses to 20, not -20 (the
minus sign is skipped by the last-resort strategy). -/
theorem c10_nonnegative :
    (∀ text key : String, 0 ≤ parse_score text key)
    ∧ parse_score "CONFIDENCE_SCORE: -20" "CONFIDENCE_SCORE" = 20 := by
  constructor
  · intro text key
    exact parseScoreL_nonneg text.data key.data
  · have hp : pickStrategy ("CONFIDENCE_SCORE: -20".data) ("CONFIDENCE_SCORE".data)
        = some (['2', '0'], []) := by decide
    rw [parse_score_eq_val hp, numVal_nil]
    rw [show digitsToNat ['2', '0'] = 20 from rfl]
    norm_num

/-- C3: for a well-formed score block "LABEL: [N]" or "LABEL: N" — the
label matched case-insensitively at its leftmost strategy-1 match,
optional whitespace after the colon, optional opening bracket, N an
unsigned integer or decimal literal — parse_score called with that label
returns exactly the value of N.  The text is pre ++ block ++ suf where
pre contains no earlier strategy-1 match. -/
theorem c3_wellformed_block_exact
    (key keyT pre ws br ds fs suf : List Char)
    (hkey : List.Forall₂ (fun a b => lowEq a b = true) key keyT)
    (hpre : ∀ t, t ≠ [] → t <:+ pre →
      strat1M key (t ++ (keyT ++ ':' :: (ws ++ (br ++ (numPart ds fs ++ suf))))) = none)
    (hws : ∀ c ∈ ws, isSpaceC c = true)
    (hbr : br = [] ∨ br = ['['])
    (hds1 : ds ≠ []) (hds : ∀ c ∈ ds, c.isDigit = true)
    (hfs : ∀ c ∈ fs, c.isDigit = true)
    (hsuf : ∀ c, suf.head? = some c → c.isDigit = false ∧ c ≠ '.') :
    parseScoreL (pre ++ (keyT ++ ':' :: (ws ++ (br ++ (numPart ds fs ++ suf))))) key
      = numVal ds fs := by
  have hm : strat1M key (keyT ++ ':' :: (ws ++ (br ++ (numPart ds fs ++ suf))))
      = some (ds, fs) := by
    unfold strat1M
    rw [stripCI_forall2 hkey]
    exact colonNum_eq hws hbr hds1 hds hfs hsuf
  have hsearch : strat1 key (pre ++ (keyT ++ ':' :: (ws ++ (br ++ (numPart ds fs ++ suf)))))
      = some (ds, fs) := by
    unfold strat1
    rw [searchO_skip pre hpre]
    exact searchO_eq_some hm
  unfold parseScoreL pickStrategy
  simp only [hsearch]

/-- C3 witness: the block "Factual_Accuracy_Score: [85]", with the label
in a different casing than the key, parses to exactly 85. -/
theorem c3_witness :
    parse_score "Factual_Accuracy_Score: [85]" "FACTUAL_ACCURACY_SCORE" = 85 := by
  have h := c3_wellformed_block_exact ("FACTUAL_ACCURACY_SCORE".data)
    ("Factual_Accuracy_Score".data) [] [' '] ['['] ['8', '5'] [] [']']
    (by decide)
    (by intro t ht hs
        obtain ⟨u, hu⟩ := hs
        exact absurd (List.append_eq_nil.mp hu).2 ht)
    (by decide) (Or.inr rfl) (by decide) (by decide) (by decide) (by decide)
  have he : ([] : List Char) ++ ("Factual_Accuracy_Score".data
      ++ ':' :: ([' '] ++ (['['] ++ (numPart ['8', '5'] [] ++ [']']))))
      = "Factual_Accuracy_Score: [85]".data := by decide
  show parseScoreL ("Factual_Accuracy_Score: [85]".data)
      ("FACTUAL_ACCURACY_SCORE".data) = 85
  rw [← he, h, numVal_nil]
  rw [show digitsToNat ['8', '5'] = 85 from rfl]
  norm_num

/-- C4: when the label occurs in none of the five fallback forms — the
exact-label search, the spaced-label search, the Trust-specific search,
the truncated-leading-token search, and the last-resort
leading-token-then-number search all fail — parse_score returns the
default 0.0. -/
theorem c4_no_label_default_zero (text key : List Char)
    (h1 : strat1 key text = none) (h2 : strat2 key text = none)
    (h3t : stratTrust text = none) (h3 : strat3 key text = none)
    (h4 : strat4 key text = none) :
    parseScoreL text key = 0 := by
  unfold parseScoreL pickStrategy
  simp only [h1, h2]
  cases hS : containsSub ("SCORE".data) key
  · simp [h4]
  · cases hT : containsSub ("TRUST".data) key
    · simp [h3, h4]
    · simp [h3t, h3, h4]

/-- C4 witness: "hello world" contains CONFIDENCE_SCORE in none of the
five fallback forms, so the extractor returns 0. -/
theorem c4_witness : parse_score "hello world" "CONFIDENCE_SCORE" = 0 :=
  c4_no_label_default_zero ("hello world".data) ("CONFIDENCE_SCORE".data)
    (by decide) (by decide) (by decide) (by decide) (by decide)

/-- C5 counterexample: the last-resort pattern uses "." without the
DOTALL flag, so it cannot cross a newline: in "FACTUAL\n85" the number
85 appears after the leading token FACTUAL but on a later line, and
parse_score returns the default 0, not 85 — refuting "even when that
number is on a later line than the leading token". -/
theorem c5_counterexample :
    parse_score "FACTUAL\n85" "FACTUAL_ACCURACY_SCORE" = 0 :=
  parse_score_eq_default (by decide)

/-- C5 (amended): when none of the earlier fallback strategies match,
the last-resort strategy returns the first number (unsigned integer or
decimal literal) that appears after the label's leading token with no
newline in between — regardless of colon placement, but only on the
same line as the token; a number only on a later line is not found and
the default 0.0 is returned. -/
theorem c5_amended_same_line (key pre mid ds fs suf : List Char)
    (h1 : strat1 key (pre ++ (shortKey key ++ (mid ++ (numPart ds fs ++ suf)))) = none)
    (h2 : strat2 key (pre ++ (shortKey key ++ (mid ++ (numPart ds fs ++ suf)))) = none)
    (h3t : stratTrust (pre ++ (shortKey key ++ (mid ++ (numPart ds fs ++ suf)))) = none)
    (h3 : strat3 key (pre ++ (shortKey key ++ (mid ++ (numPart ds fs ++ suf)))) = none)
    (hpre : ∀ t, t ≠ [] → t <:+ pre →
      strat4M key (t ++ (shortKey key ++ (mid ++ (numPart ds fs ++ suf)))) = none)
    (hmid : ∀ c ∈ mid, c ≠ '\n' ∧ c.isDigit = false)
    (hds1 : ds ≠ []) (hds : ∀ c ∈ ds, c.isDigit = true)
    (hfs : ∀ c ∈ fs, c.isDigit = true)
    (hsuf : ∀ c, suf.head? = some c → c.isDigit = false ∧ c ≠ '.') :
    parseScoreL (pre ++ (shortKey key ++ (mid ++ (numPart ds fs ++ suf)))) key
      = numVal ds fs := by
  have hm : strat4M key (shortKey key ++ (mid ++ (numPart ds fs ++ suf)))
      = some (ds, fs) := by
    unfold strat4M
    rw [stripCI_self]
    exact lineToNum_eq mid hmid hds1 hds hfs hsuf
  have hsearch : strat4 key (pre ++ (shortKey key ++ (mid ++ (numPart ds fs ++ suf))))
      = some (ds, fs) := by
    unfold strat4
    rw [searchO_skip pre hpre]
    exact searchO_eq_some hm
  unfold parseScoreL pickStrategy
  simp only [h1, h2]
  cases hS : containsSub ("SCORE".data) key
  · simp [hsearch]
  · cases hT : containsSub ("TRUST".data) key
    · simp [h3, hsearch]
    · simp [h3t, h3, hsearch]

/-- C5 witness: in "FACTUAL => 8.5" the decimal number follows the
leading token on the same line with no colon at all, and the last-resort
strategy returns 8.5. -/
theorem c5_witness :
    parse_score "FACTUAL => 8.5" "FACTUAL_ACCURACY_SCORE" = 8.5 := by
  have h := c5_amended_same_line ("FACTUAL_ACCURACY_SCORE".data) []
    (" => ".data) ['8'] ['5'] []
    (by decide) (by decide) (by decide) (by decide)
    (by intro t ht hs
        obtain ⟨u, hu⟩ := hs
        exact absurd (List.append_eq_nil.mp hu).2 ht)
    (by decide) (by decide) (by decide) (by decide) (by decide)
  have he : ([] : List Char) ++ (shortKey ("FACTUAL_ACCURACY_SCORE".data)
      ++ (" => ".data ++ (numPart ['8'] ['5'] ++ [])))
      = "FACTUAL => 8.5".data := by decide
  show parseScoreL ("FACTUAL => 8.5".data) ("FACTUAL_ACCURACY_SCORE".data) = 8.5
  rw [← he, h]
  unfold numVal
  rw [show digitsToNat ['8'] = 8 from rfl, show digitsToNat ['5'] = 5 from rfl,
    show (['5'] : List Char).length = 1 from rfl]
  norm_num

/-- C9 counterexample: extracted scores are not clamped to [0,100]: with
generator text "CONFIDENCE_SCORE: 250" the pipeline completes
successfully and reports Confidence 250, outside [0,100]. -/
theorem c9_counterexample :
    run envBigScore "q" = Sum.inr
      { answer := "."
      , scores := [("Confidence", 250), ("Factual Accuracy", 0),
          ("Hallucination Score", 0), ("Agreement", 0), ("Final Trust", 0)]
      , debug := ⟨"CONFIDENCE_SCORE: 250", "."⟩ } := by
  have h1 : parse_score "CONFIDENCE_SCORE: 250" "CONFIDENCE_SCORE" = 250 := by
    have hp : pickStrategy ("CONFIDENCE_SCORE: 250".data) ("CONFIDENCE_SCORE".data)
        = some (['2', '5', '0'], []) := by decide
    rw [parse_score_eq_val hp, numVal_nil]
    rw [show digitsToNat ['2', '5', '0'] = 250 from rfl]
    norm_num
  have h2 : parse_score "." "FACTUAL_ACCURACY_SCORE" = 0 :=
    parse_score_eq_default (by decide)
  have h3 : parse_score "." "HALLUCINATION_SCORE" = 0 :=
    parse_score_eq_default (by decide)
  have h4 : parse_score "." "AGREEMENT_SCORE" = 0 :=
    parse_score_eq_default (by decide)
  have h5 : parse_score "." "FINAL_TRUST_SCORE" = 0 :=
    parse_score_eq_default (by decide)
  have hclean : cleanAnswer "." = "." := by decide
  show Sum.inr (assemble "CONFIDENCE_SCORE: 250" "." ".") = _
  unfold assemble
  rw [h1, h2, h3, h4, h5, hclean]

/-- C9 (amended): every successful result's scores mapping contains
exactly the five metrics in the fixed insertion order Confidence,
Factual Accuracy, Hallucination Score, Agreement, Final Trust, and
every value is nonnegative (defaulting to 0.0 when unparsable); the
values are not clamped above, so they can exceed 100. -/
theorem c9_amended_scores_shape (env : Env) (q : String) (r : PipelineResult)
    (h : run env q = Sum.inr r) :
    r.scores.map Prod.fst = ["Confidence", "Factual Accuracy",
      "Hallucination Score", "Agreement", "Final Trust"]
    ∧ ∀ p ∈ r.scores, 0 ≤ p.2 := by
  rcases env with ⟨og, ov, oc⟩
  cases og with
  | none => exact absurd h (by cases ov <;> cases oc <;> simp [run, runT])
  | some g =>
    cases ov with
    | none => exact absurd h (by cases oc <;> simp [run, runT])
    | some v =>
      cases oc with
      | none => exact absurd h (by simp [run, runT])
      | some c =>
        rcases hg : g q with e | ga
        · exact absurd h (by simp [run, runT, hg])
        · rcases hv : v q with e | va
          · exact absurd h (by simp [run, runT, hg, hv])
          · rcases hc : c ⟨q, ga, va⟩ with e | raw
            · exact absurd h (by simp [run, runT, hg, hv, hc])
            · have hrr : run ⟨some g, some v, some c⟩ q
                  = Sum.inr (assemble ga va raw) := by
                simp [run, runT, hg, hv, hc]
              rw [hrr] at h
              simp only [Sum.inr.injEq] at h
              subst h
              constructor
              · rfl
              · intro p hp
                simp only [assemble, List.mem_cons, List.not_mem_nil, or_false] at hp
                rcases hp with rfl | rfl | rfl | rfl | rfl <;>
                  exact parseScoreL_nonneg _ _

/-- C9 amended witness: on the capital-of-France scenario environment
the five metric names appear in the fixed insertion order. -/
theorem c9_witness :
    (scoresOf (run envScenario "paris")).map Prod.fst
      = ["Confidence", "Factual Accuracy", "Hallucination Score",
         "Agreement", "Final Trust"] := by
  have hrun : run envScenario "paris" = Sum.inr (assemble "CONFIDENCE_SCORE: 90"
      "FACTUAL_ACCURACY_SCORE: 95\nHALLUCINATION_SCORE: 2"
      "Paris is the capital.\nAGREEMENT_SCORE: 88\nFINAL_TRUST_SCORE: 92") := rfl
  have h := c9_amended_scores_shape envScenario "paris" _ hrun
  rw [hrun]
  exact h.1

end TrueSynth
